import Mathlib

/-!
Verification of the Input-Capture macro recorder core.

The event model and the capture-time procedures (`MouseBIProc`, the recording
tail of `KbdBIProc`) are embedded from the two translation units of the
repository.  Components whose implementation is not part of the sources
(`RecordList`, `KeyComboRec`) are modelled from the specification text and
are marked as such in their doc comments.
-/

/-- The tagged event variant stored in a record sequence (the `InputData`
std::variant of the sources): a delay marker, a keyboard event, a mouse
move, a mouse button click, an X-button click, or a wheel scroll. -/
inductive InputData where
  | DelayData (milliseconds : Nat)
  | KbdData (makeCode : Nat) (pressed : Bool) (isScanCode : Bool) (e0 : Bool)
  | MouseMoveData (x : Int) (y : Int) (absolute : Bool)
  | MouseClickData (down : Bool) (left : Bool) (right : Bool) (middle : Bool)
  | MouseXClickData (down : Bool) (xb1 : Bool) (xb2 : Bool)
  | MouseScrollData (ticks : Int)
deriving DecidableEq, Repr

/-- True exactly on the `DelayData` variant (the `std::get_if<DelayData>`
check of the sources). -/
def isDelay : InputData → Bool
  | InputData.DelayData _ => true
  | _ => false

/-- The delay-coalescing block shared by `MouseBIProc` and `KbdBIProc`:
when the elapsed time is nonzero, look at the back of the record
(`recordList.GetBack()`); if there is no back entry do nothing, if the back
entry is a `DelayData` accumulate into it (`AddDelay`), otherwise append a
fresh `DelayData`. -/
def recordDelay (seq : List InputData) (delay : Nat) : List InputData :=
  if delay ≠ 0 then
    match seq.getLast? with
    | none => seq
    | some (InputData.DelayData ms) =>
        seq.dropLast ++ [InputData.DelayData (ms + delay)]
    | some _ => seq ++ [InputData.DelayData delay]
  else seq

/-- The raw mouse packet fields used by `MouseBIProc`. -/
structure RAWMOUSE where
  usFlags : Nat
  lLastX : Int
  lLastY : Int
  usButtonFlags : Nat
  usButtonData : Nat
deriving DecidableEq, Repr

def MOUSE_MOVE_RELATIVE : Nat := 0
def MOUSE_MOVE_ABSOLUTE : Nat := 1
def RI_MOUSE_LEFT_BUTTON_DOWN : Nat := 0x0001
def RI_MOUSE_LEFT_BUTTON_UP : Nat := 0x0002
def RI_MOUSE_RIGHT_BUTTON_DOWN : Nat := 0x0004
def RI_MOUSE_RIGHT_BUTTON_UP : Nat := 0x0008
def RI_MOUSE_MIDDLE_BUTTON_DOWN : Nat := 0x0010
def RI_MOUSE_MIDDLE_BUTTON_UP : Nat := 0x0020
def RI_MOUSE_BUTTON_4_DOWN : Nat := 0x0040
def RI_MOUSE_BUTTON_4_UP : Nat := 0x0080
def RI_MOUSE_BUTTON_5_DOWN : Nat := 0x0100
def RI_MOUSE_BUTTON_5_UP : Nat := 0x0200
def RI_MOUSE_WHEEL : Nat := 0x0400
def WHEEL_DELTA : Int := 120

/-- Reinterpret the unsigned 16-bit `usButtonData` field as a signed
`short`, as the cast `(short)mouse.usButtonData` does. -/
def toWinShort (v : Nat) : Int :=
  if v % 65536 < 32768 then ((v % 65536 : Nat) : Int)
  else ((v % 65536 : Nat) : Int) - 65536

/-- Signed wheel notches: `(short)mouse.usButtonData / WHEEL_DELTA`
(C integer division truncates toward zero). -/
def wheelTicks (v : Nat) : Int := Int.tdiv (toWinShort v) WHEEL_DELTA

/-- The mouse-move section of `MouseBIProc`: a relative packet
(`usFlags == MOUSE_MOVE_RELATIVE`) is recorded only when one of the deltas
is nonzero, an absolute packet (`usFlags & MOUSE_MOVE_ABSOLUTE`) is
recorded unconditionally. -/
def moveEvents (m : RAWMOUSE) : List InputData :=
  if m.usFlags = MOUSE_MOVE_RELATIVE then
    if m.lLastX ≠ 0 ∨ m.lLastY ≠ 0 then
      [InputData.MouseMoveData m.lLastX m.lLastY false]
    else []
  else if m.usFlags &&& MOUSE_MOVE_ABSOLUTE ≠ 0 then
    [InputData.MouseMoveData m.lLastX m.lLastY true]
  else []

/-- The left-button if/else-if chain of `MouseBIProc`. -/
def leftButtonEvents (f : Nat) : List InputData :=
  if f &&& RI_MOUSE_LEFT_BUTTON_DOWN ≠ 0 then
    [InputData.MouseClickData true true false false]
  else if f &&& RI_MOUSE_LEFT_BUTTON_UP ≠ 0 then
    [InputData.MouseClickData false true false false]
  else []

/-- The right-button if/else-if chain of `MouseBIProc`. -/
def rightButtonEvents (f : Nat) : List InputData :=
  if f &&& RI_MOUSE_RIGHT_BUTTON_DOWN ≠ 0 then
    [InputData.MouseClickData true false true false]
  else if f &&& RI_MOUSE_RIGHT_BUTTON_UP ≠ 0 then
    [InputData.MouseClickData false false true false]
  else []

/-- The wheel / middle-button chain of `MouseBIProc`: the wheel test and
the two middle-button tests form one if/else-if chain, so a packet whose
wheel flag is set records the scroll and skips the middle-button tests. -/
def wheelOrMiddleEvents (m : RAWMOUSE) : List InputData :=
  if m.usButtonFlags &&& RI_MOUSE_WHEEL ≠ 0 then
    [InputData.MouseScrollData (wheelTicks m.usButtonData)]
  else if m.usButtonFlags &&& RI_MOUSE_MIDDLE_BUTTON_DOWN ≠ 0 then
    [InputData.MouseClickData true false false true]
  else if m.usButtonFlags &&& RI_MOUSE_MIDDLE_BUTTON_UP ≠ 0 then
    [InputData.MouseClickData false false false true]
  else []

/-- The side-button-1 if/else-if chain of `MouseBIProc`. -/
def xButton1Events (f : Nat) : List InputData :=
  if f &&& RI_MOUSE_BUTTON_4_DOWN ≠ 0 then
    [InputData.MouseXClickData true true false]
  else if f &&& RI_MOUSE_BUTTON_4_UP ≠ 0 then
    [InputData.MouseXClickData false true false]
  else []

/-- The side-button-2 if/else-if chain of `MouseBIProc`. -/
def xButton2Events (f : Nat) : List InputData :=
  if f &&& RI_MOUSE_BUTTON_5_DOWN ≠ 0 then
    [InputData.MouseXClickData true false true]
  else if f &&& RI_MOUSE_BUTTON_5_UP ≠ 0 then
    [InputData.MouseXClickData false false true]
  else []

/-- All substantive events a raw mouse packet records, in the order the
sections of `MouseBIProc` append them. -/
def mouseEvents (m : RAWMOUSE) : List InputData :=
  moveEvents m ++ leftButtonEvents m.usButtonFlags ++
    rightButtonEvents m.usButtonFlags ++ wheelOrMiddleEvents m ++
    xButton1Events m.usButtonFlags ++ xButton2Events m.usButtonFlags

/-- `MouseBIProc(mouse, delay)` acting on the current record sequence:
when recording, coalesce the elapsed delay and append the packet's
events; otherwise leave the sequence alone. -/
def MouseBIProc (recording : Bool) (seq : List InputData) (m : RAWMOUSE)
    (delay : Nat) : List InputData :=
  if recording then recordDelay seq delay ++ mouseEvents m else seq

/-- The raw keyboard packet fields used by `KbdBIProc`. -/
structure RAWKEYBOARD where
  MakeCode : Nat
  Flags : Nat
  VKey : Nat
  Message : Nat
deriving DecidableEq, Repr

def RI_KEY_BREAK : Nat := 1
def RI_KEY_E0 : Nat := 2

/-- The recording tail of `KbdBIProc`: when recording and the key is not
in the ignore set, coalesce the elapsed delay and append the key event
(`KbdData(kbd.MakeCode, !(kbd.Flags & RI_KEY_BREAK), true,
kbd.Flags & RI_KEY_E0)` in the later revision). -/
def kbdRecordStep (recording ignored : Bool) (seq : List InputData)
    (kbd : RAWKEYBOARD) (delay : Nat) : List InputData :=
  if recording && !ignored then
    recordDelay seq delay ++
      [InputData.KbdData kbd.MakeCode (kbd.Flags &&& RI_KEY_BREAK == 0) true
        (kbd.Flags &&& RI_KEY_E0 != 0)]
  else seq

/-- One capture-time record call, the common shape of `MouseBIProc` and the
recording tail of `KbdBIProc`: delay coalescing followed by appending the
substantive events the raw packet produced. -/
def recordStep (seq : List InputData) (step : Nat × List InputData) :
    List InputData :=
  recordDelay seq step.1 ++ step.2

/-- A whole capture session: the sequence obtained by starting from the
fresh (empty) sequence of `StartRecording` and folding an arbitrary
interleaving of record calls over it. -/
def captureRun (steps : List (Nat × List InputData)) : List InputData :=
  steps.foldl recordStep []

/-- No two adjacent entries of the sequence are both delays. -/
def NoTwoDelays (l : List InputData) : Prop :=
  l.Chain' (fun a b => isDelay a = false ∨ isDelay b = false)

instance : DecidablePred NoTwoDelays := fun l =>
  (inferInstance : Decidable (l.Chain' _))

theorem recordDelay_zero (seq : List InputData) : recordDelay seq 0 = seq := by
  simp [recordDelay]

theorem recordDelay_none {seq : List InputData} (d : Nat)
    (h : seq.getLast? = none) : recordDelay seq d = seq := by
  by_cases hd : d = 0
  · simp [hd, recordDelay_zero]
  · simp [recordDelay, hd, h]

theorem recordDelay_nil (d : Nat) : recordDelay [] d = [] :=
  recordDelay_none d rfl

theorem recordDelay_back_delay {seq : List InputData} {ms : Nat} (d : Nat)
    (hd : d ≠ 0) (h : seq.getLast? = some (InputData.DelayData ms)) :
    recordDelay seq d = seq.dropLast ++ [InputData.DelayData (ms + d)] := by
  simp [recordDelay, hd, h]

theorem recordDelay_back_other {seq : List InputData} {e : InputData} (d : Nat)
    (hd : d ≠ 0) (h : seq.getLast? = some e) (he : isDelay e = false) :
    recordDelay seq d = seq ++ [InputData.DelayData d] := by
  cases e <;> simp_all [recordDelay, isDelay]

theorem noTwoDelays_of_noDelay {l : List InputData}
    (h : ∀ e ∈ l, isDelay e = false) : NoTwoDelays l := by
  induction l with
  | nil => exact List.chain'_nil
  | cons a t ih =>
    refine List.Chain'.cons' (ih fun e he => h e (List.mem_cons_of_mem a he)) ?_
    intro y _
    exact Or.inl (h a (List.mem_cons_self a t))

theorem noTwoDelays_append {l evs : List InputData} (hl : NoTwoDelays l)
    (hevs : ∀ e ∈ evs, isDelay e = false) : NoTwoDelays (l ++ evs) := by
  rw [NoTwoDelays, List.chain'_append]
  refine ⟨hl, noTwoDelays_of_noDelay hevs, ?_⟩
  intro x _ y hy
  exact Or.inr (hevs y (List.mem_of_mem_head? hy))

theorem recordDelay_noTwoDelays {seq : List InputData} (d : Nat)
    (h : NoTwoDelays seq) : NoTwoDelays (recordDelay seq d) := by
  by_cases hd : d = 0
  · simpa [hd, recordDelay_zero] using h
  · cases hlast : seq.getLast? with
    | none => rw [recordDelay_none d hlast]; exact h
    | some e =>
      cases he : isDelay e with
      | false =>
        rw [recordDelay_back_other d hd hlast he]
        rw [NoTwoDelays, List.chain'_append]
        refine ⟨h, List.chain'_singleton _, ?_⟩
        intro x hx y hy
        rw [hlast, Option.mem_def, Option.some.injEq] at hx
        subst hx
        exact Or.inl he
      | true =>
        obtain ⟨ms, rfl⟩ : ∃ ms, e = InputData.DelayData ms := by
          cases e <;> simp_all [isDelay]
        rw [recordDelay_back_delay d hd hlast]
        have hsplit : seq.dropLast ++ [InputData.DelayData ms] = seq :=
          List.dropLast_append_getLast? _ hlast
        have h2 : NoTwoDelays (seq.dropLast ++ [InputData.DelayData ms]) := by
          rw [hsplit]; exact h
        rw [NoTwoDelays, List.chain'_append] at h2 ⊢
        refine ⟨h2.1, List.chain'_singleton _, ?_⟩
        intro x hx y hy
        have hms := h2.2.2 x hx (InputData.DelayData ms) rfl
        rw [List.head?_cons, Option.mem_def, Option.some.injEq] at hy
        subst hy
        rcases hms with hx2 | hms2
        · exact Or.inl hx2
        · simp [isDelay] at hms2

theorem recordStep_noTwoDelays {seq : List InputData}
    {p : Nat × List InputData} (h : NoTwoDelays seq)
    (hp : ∀ e ∈ p.2, isDelay e = false) : NoTwoDelays (recordStep seq p) :=
  noTwoDelays_append (recordDelay_noTwoDelays p.1 h) hp

/-- The coalescing invariant over a whole capture session: starting from any
sequence satisfying it, folding record calls preserves it. -/
theorem captureFold_noTwoDelays (steps : List (Nat × List InputData))
    (seq : List InputData) (h : NoTwoDelays seq)
    (hs : ∀ p ∈ steps, ∀ e ∈ p.2, isDelay e = false) :
    NoTwoDelays (steps.foldl recordStep seq) := by
  induction steps generalizing seq with
  | nil => exact h
  | cons p rest ih =>
    rw [List.foldl_cons]
    exact ih _ (recordStep_noTwoDelays h (hs p (List.mem_cons_self p rest)))
      (fun q hq => hs q (List.mem_cons_of_mem p hq))

theorem recordDelay_head {a : InputData} {t : List InputData} (d : Nat)
    (ha : isDelay a = false) : (recordDelay (a :: t) d).head? = some a := by
  by_cases hd : d = 0
  · rw [hd, recordDelay_zero, List.head?_cons]
  · cases t with
    | nil =>
      have hlast : (a :: ([] : List InputData)).getLast? = some a := rfl
      rw [recordDelay_back_other d hd hlast ha]
      rfl
    | cons b r =>
      cases hlast : (a :: b :: r).getLast? with
      | none => simp at hlast
      | some e =>
        cases he : isDelay e with
        | false =>
          rw [recordDelay_back_other d hd hlast he]
          rfl
        | true =>
          obtain ⟨ms, rfl⟩ : ∃ ms, e = InputData.DelayData ms := by
            cases e <;> simp_all [isDelay]
          rw [recordDelay_back_delay d hd hlast]
          rw [List.dropLast_cons₂, List.cons_append, List.head?_cons]

theorem moveEvents_noDelay (m : RAWMOUSE) :
    ∀ e ∈ moveEvents m, isDelay e = false := by
  intro e he
  unfold moveEvents at he
  split at he
  · split at he
    · simp only [List.mem_singleton] at he; subst he; rfl
    · simp at he
  · split at he
    · simp only [List.mem_singleton] at he; subst he; rfl
    · simp at he

theorem leftButtonEvents_noDelay (f : Nat) :
    ∀ e ∈ leftButtonEvents f, isDelay e = false := by
  intro e he
  unfold leftButtonEvents at he
  split at he
  · simp only [List.mem_singleton] at he; subst he; rfl
  · split at he
    · simp only [List.mem_singleton] at he; subst he; rfl
    · simp at he

theorem rightButtonEvents_noDelay (f : Nat) :
    ∀ e ∈ rightButtonEvents f, isDelay e = false := by
  intro e he
  unfold rightButtonEvents at he
  split at he
  · simp only [List.mem_singleton] at he; subst he; rfl
  · split at he
    · simp only [List.mem_singleton] at he; subst he; rfl
    · simp at he

theorem wheelOrMiddleEvents_noDelay (m : RAWMOUSE) :
    ∀ e ∈ wheelOrMiddleEvents m, isDelay e = false := by
  intro e he
  unfold wheelOrMiddleEvents at he
  split at he
  · simp only [List.mem_singleton] at he; subst he; rfl
  · split at he
    · simp only [List.mem_singleton] at he; subst he; rfl
    · split at he
      · simp only [List.mem_singleton] at he; subst he; rfl
      · simp at he

theorem xButton1Events_noDelay (f : Nat) :
    ∀ e ∈ xButton1Events f, isDelay e = false := by
  intro e he
  unfold xButton1Events at he
  split at he
  · simp only [List.mem_singleton] at he; subst he; rfl
  · split at he
    · simp only [List.mem_singleton] at he; subst he; rfl
    · simp at he

theorem xButton2Events_noDelay (f : Nat) :
    ∀ e ∈ xButton2Events f, isDelay e = false := by
  intro e he
  unfold xButton2Events at he
  split at he
  · simp only [List.mem_singleton] at he; subst he; rfl
  · split at he
    · simp only [List.mem_singleton] at he; subst he; rfl
    · simp at he

theorem mouseEvents_noDelay (m : RAWMOUSE) :
    ∀ e ∈ mouseEvents m, isDelay e = false := by
  intro e he
  simp only [mouseEvents, List.append_assoc, List.mem_append] at he
  rcases he with h | h | h | h | h | h
  · exact moveEvents_noDelay m e h
  · exact leftButtonEvents_noDelay _ e h
  · exact rightButtonEvents_noDelay _ e h
  · exact wheelOrMiddleEvents_noDelay m e h
  · exact xButton1Events_noDelay _ e h
  · exact xButton2Events_noDelay _ e h

/-- The first entry of the sequence, when there is one, is not a delay. -/
def FirstNotDelay (l : List InputData) : Prop :=
  ∀ e ∈ l.head?, isDelay e = false

theorem recordStep_firstNotDelay {seq : List InputData}
    {p : Nat × List InputData} (h : FirstNotDelay seq)
    (hp : ∀ e ∈ p.2, isDelay e = false) : FirstNotDelay (recordStep seq p) := by
  cases seq with
  | nil =>
    intro e he
    rw [recordStep, recordDelay_nil, List.nil_append] at he
    exact hp e (List.mem_of_mem_head? he)
  | cons a t =>
    have ha : isDelay a = false := h a rfl
    have hh := recordDelay_head (a := a) (t := t) p.1 ha
    intro e he
    rw [recordStep] at he
    cases hr : recordDelay (a :: t) p.1 with
    | nil => rw [hr] at hh; simp at hh
    | cons x xs =>
      rw [hr] at hh he
      rw [List.head?_cons, Option.some.injEq] at hh
      rw [List.cons_append, List.head?_cons, Option.mem_def,
        Option.some.injEq] at he
      rw [← he, hh]
      exact ha

theorem captureFold_firstNotDelay (steps : List (Nat × List InputData))
    (seq : List InputData) (h : FirstNotDelay seq)
    (hs : ∀ p ∈ steps, ∀ e ∈ p.2, isDelay e = false) :
    FirstNotDelay (steps.foldl recordStep seq) := by
  induction steps generalizing seq with
  | nil => exact h
  | cons p rest ih =>
    rw [List.foldl_cons]
    exact ih _ (recordStep_firstNotDelay h (hs p (List.mem_cons_self p rest)))
      (fun q hq => hs q (List.mem_cons_of_mem p hq))

/-- A recorded key event used in the concrete scenarios below. -/
def demoKey : InputData := InputData.KbdData 30 true true false

/-- A raw mouse packet carrying no movement and no button change. -/
def stillMouse : RAWMOUSE := ⟨0, 0, 0, 0, 0⟩

/-- A raw key-down packet (make code 31, flags `RI_KEY_MAKE`). -/
def demoKbd : RAWKEYBOARD := ⟨31, 0, 66, 256⟩

/-- The capture run behind the concrete coalescing scenario: a key event,
then 3 ms of idle with no substantive event, then 4 ms of idle followed by
a second key event. -/
def demoSteps : List (Nat × List InputData) :=
  [(0, [demoKey]), (3, []), (4, [InputData.KbdData 31 true true false])]

/-- C1: over any interleaving of capture-time record calls (each call being
delay coalescing followed by appending the packet's substantive, non-delay
events — and every event a mouse packet records is indeed non-delay), no
`DelayData` entry is ever adjacent to another, and the concrete scenario
of 3 ms and 4 ms of idle arriving before a non-delay event yields the
single merged entry `DelayData 7`. -/
theorem capture_no_adjacent_delays
    (steps : List (Nat × List InputData))
    (hsub : ∀ p ∈ steps, ∀ e ∈ p.2, isDelay e = false) :
    NoTwoDelays (captureRun steps) ∧
    (∀ m : RAWMOUSE, ∀ e ∈ mouseEvents m, isDelay e = false) ∧
    kbdRecordStep true false (MouseBIProc true [demoKey] stillMouse 3)
        demoKbd 4 =
      [demoKey, InputData.DelayData 7, InputData.KbdData 31 true true false] :=
  ⟨captureFold_noTwoDelays steps [] List.chain'_nil hsub,
   mouseEvents_noDelay, by decide⟩

theorem capture_no_adjacent_delays_witness :
    NoTwoDelays (captureRun demoSteps) ∧
    captureRun demoSteps =
      [demoKey, InputData.DelayData 7, InputData.KbdData 31 true true false] :=
  ⟨(capture_no_adjacent_delays demoSteps (by decide)).1, by decide⟩

/-- C9: a captured sequence never begins with a `DelayData` entry: starting
from the fresh sequence, the coalescing step appends or extends a delay
only when the sequence already has a back entry, so the head of the run is
always a substantive event. -/
theorem capture_head_not_delay (steps : List (Nat × List InputData))
    (hsub : ∀ p ∈ steps, ∀ e ∈ p.2, isDelay e = false) :
    ∀ e ∈ (captureRun steps).head?, isDelay e = false :=
  captureFold_firstNotDelay steps [] (fun e he => by simp at he) hsub

theorem capture_head_not_delay_witness : isDelay demoKey = false :=
  capture_head_not_delay [(5, [demoKey]), (2, [])] (by decide) demoKey
    (Option.mem_def.mpr (by decide))

/-- C2 counterexample: on the empty sequence `GetBack()` returns null, so a
record call with elapsed time 5 appends the key event with no preceding
`DelayData 5`, contradicting the claim that a delay is appended even when
the sequence has no last entry. -/
theorem record_on_empty_appends_no_delay_cex :
    kbdRecordStep true false [] demoKbd 5 =
      [InputData.KbdData 31 true true false] ∧
    InputData.DelayData 5 ∉ kbdRecordStep true false [] demoKbd 5 := by
  decide

/-- C2 amended: for a record call with elapsedMs > 0, if the sequence is
non-empty and its last entry is a `DelayData` that entry is increased by
elapsedMs; if it is non-empty with a non-delay last entry a fresh
`DelayData elapsedMs` is appended before the substantive event; and if the
sequence is empty no delay is appended at all. -/
theorem recordEvent_delay_cases (seq : List InputData) (d : Nat)
    (evs : List InputData) (hd : d ≠ 0) :
    (seq = [] → recordStep seq (d, evs) = evs) ∧
    (∀ dl ms, seq = dl ++ [InputData.DelayData ms] →
      recordStep seq (d, evs) = dl ++ [InputData.DelayData (ms + d)] ++ evs) ∧
    (∀ dl e, seq = dl ++ [e] → isDelay e = false →
      recordStep seq (d, evs) = seq ++ [InputData.DelayData d] ++ evs) := by
  refine ⟨?_, ?_, ?_⟩
  · intro h
    subst h
    rw [recordStep, recordDelay_nil, List.nil_append]
  · intro dl ms h
    subst h
    have hlast : (dl ++ [InputData.DelayData ms]).getLast? =
        some (InputData.DelayData ms) := by
      simp
    rw [recordStep, recordDelay_back_delay d hd hlast, List.dropLast_concat,
      List.append_assoc]
  · intro dl e h he
    subst h
    have hlast : (dl ++ [e]).getLast? = some e := by simp
    rw [recordStep, recordDelay_back_other d hd hlast he, List.append_assoc]

theorem recordEvent_delay_cases_witness :
    recordStep [demoKey] (5, [InputData.KbdData 31 true true false]) =
      [demoKey] ++ [InputData.DelayData 5] ++
        [InputData.KbdData 31 true true false] :=
  (recordEvent_delay_cases [demoKey] 5 [InputData.KbdData 31 true true false]
    (by decide)).2.2 [] demoKey rfl rfl

theorem mem_recordDelay {seq : List InputData} {d : Nat} {e : InputData}
    (he : e ∈ recordDelay seq d) : e ∈ seq ∨ isDelay e = true := by
  by_cases hd : d = 0
  · rw [hd, recordDelay_zero] at he; exact Or.inl he
  · cases hlast : seq.getLast? with
    | none => rw [recordDelay_none d hlast] at he; exact Or.inl he
    | some x =>
      cases hx : isDelay x with
      | false =>
        rw [recordDelay_back_other d hd hlast hx] at he
        rcases List.mem_append.mp he with h | h
        · exact Or.inl h
        · simp only [List.mem_singleton] at h; subst h; exact Or.inr rfl
      | true =>
        obtain ⟨ms, rfl⟩ : ∃ ms, x = InputData.DelayData ms := by
          cases x <;> simp_all [isDelay]
        rw [recordDelay_back_delay d hd hlast] at he
        rcases List.mem_append.mp he with h | h
        · exact Or.inl ((List.dropLast_sublist seq).subset h)
        · simp only [List.mem_singleton] at h; subst h; exact Or.inr rfl

theorem mem_leftButtonEvents {f : Nat} {e : InputData}
    (he : e ∈ leftButtonEvents f) :
    ∃ b : Bool, e = InputData.MouseClickData b true false false := by
  unfold leftButtonEvents at he
  split at he
  · simp only [List.mem_singleton] at he; exact ⟨true, he⟩
  · split at he
    · simp only [List.mem_singleton] at he; exact ⟨false, he⟩
    · simp at he

theorem mem_rightButtonEvents {f : Nat} {e : InputData}
    (he : e ∈ rightButtonEvents f) :
    ∃ b : Bool, e = InputData.MouseClickData b false true false := by
  unfold rightButtonEvents at he
  split at he
  · simp only [List.mem_singleton] at he; exact ⟨true, he⟩
  · split at he
    · simp only [List.mem_singleton] at he; exact ⟨false, he⟩
    · simp at he

theorem mem_wheelOrMiddleEvents {m : RAWMOUSE} {e : InputData}
    (he : e ∈ wheelOrMiddleEvents m) :
    e = InputData.MouseScrollData (wheelTicks m.usButtonData) ∨
      ∃ b : Bool, e = InputData.MouseClickData b false false true := by
  unfold wheelOrMiddleEvents at he
  split at he
  · simp only [List.mem_singleton] at he; exact Or.inl he
  · split at he
    · simp only [List.mem_singleton] at he; exact Or.inr ⟨true, he⟩
    · split at he
      · simp only [List.mem_singleton] at he; exact Or.inr ⟨false, he⟩
      · simp at he

theorem mem_xButton1Events {f : Nat} {e : InputData}
    (he : e ∈ xButton1Events f) :
    ∃ b : Bool, e = InputData.MouseXClickData b true false := by
  unfold xButton1Events at he
  split at he
  · simp only [List.mem_singleton] at he; exact ⟨true, he⟩
  · split at he
    · simp only [List.mem_singleton] at he; exact ⟨false, he⟩
    · simp at he

theorem mem_xButton2Events {f : Nat} {e : InputData}
    (he : e ∈ xButton2Events f) :
    ∃ b : Bool, e = InputData.MouseXClickData b false true := by
  unfold xButton2Events at he
  split at he
  · simp only [List.mem_singleton] at he; exact ⟨true, he⟩
  · split at he
    · simp only [List.mem_singleton] at he; exact ⟨false, he⟩
    · simp at he

theorem mouseMove_mem_mouseEvents {m : RAWMOUSE} {x y : Int} {ab : Bool}
    (he : InputData.MouseMoveData x y ab ∈ mouseEvents m) :
    InputData.MouseMoveData x y ab ∈ moveEvents m := by
  simp only [mouseEvents, List.append_assoc, List.mem_append] at he
  rcases he with h | h | h | h | h | h
  · exact h
  · obtain ⟨b, hb⟩ := mem_leftButtonEvents h; cases hb
  · obtain ⟨b, hb⟩ := mem_rightButtonEvents h; cases hb
  · rcases mem_wheelOrMiddleEvents h with hb | ⟨b, hb⟩ <;> cases hb
  · obtain ⟨b, hb⟩ := mem_xButton1Events h; cases hb
  · obtain ⟨b, hb⟩ := mem_xButton2Events h; cases hb

/-- C4: while recording, a relative packet whose deltas are both zero
records no mouse move (any move in the output was already in the
sequence), while an absolute packet always records its move, zero
coordinates included. -/
theorem zero_relative_moves_never_recorded (m : RAWMOUSE) :
    (m.usFlags = MOUSE_MOVE_RELATIVE → m.lLastX = 0 → m.lLastY = 0 →
      ∀ (seq : List InputData) (d : Nat) (x y : Int) (ab : Bool),
        InputData.MouseMoveData x y ab ∈ MouseBIProc true seq m d →
        InputData.MouseMoveData x y ab ∈ seq) ∧
    (m.usFlags &&& MOUSE_MOVE_ABSOLUTE ≠ 0 →
      ∀ (seq : List InputData) (d : Nat),
        InputData.MouseMoveData m.lLastX m.lLastY true ∈
          MouseBIProc true seq m d) := by
  constructor
  · intro hrel hx hy seq d x y ab he
    rw [MouseBIProc, if_pos rfl] at he
    rcases List.mem_append.mp he with h | h
    · rcases mem_recordDelay h with h2 | h2
      · exact h2
      · simp [isDelay] at h2
    · have h3 := mouseMove_mem_mouseEvents h
      rw [moveEvents, if_pos hrel, hx, hy] at h3
      simp at h3
  · intro habs seq d
    rw [MouseBIProc, if_pos rfl]
    refine List.mem_append.mpr (Or.inr ?_)
    have hne : ¬ m.usFlags = MOUSE_MOVE_RELATIVE := by
      intro h0
      rw [MOUSE_MOVE_RELATIVE] at h0
      rw [h0] at habs
      exact habs rfl
    simp only [mouseEvents, List.append_assoc, List.mem_append]
    exact Or.inl (by rw [moveEvents, if_neg hne, if_pos habs]; exact List.mem_singleton.mpr rfl)

theorem zero_relative_moves_never_recorded_witness :
    InputData.MouseMoveData 0 0 true ∈
      MouseBIProc true [] ⟨1, 0, 0, 0, 0⟩ 0 ∧
    (InputData.MouseMoveData 0 0 false ∈ MouseBIProc true [] stillMouse 7 →
      InputData.MouseMoveData 0 0 false ∈ ([] : List InputData)) :=
  ⟨(zero_relative_moves_never_recorded ⟨1, 0, 0, 0, 0⟩).2 (by decide) [] 0,
   fun h => (zero_relative_moves_never_recorded stillMouse).1 rfl rfl rfl
     [] 7 0 0 false h⟩

theorem mem_moveEvents {m : RAWMOUSE} {e : InputData} (he : e ∈ moveEvents m) :
    ∃ x y ab, e = InputData.MouseMoveData x y ab := by
  unfold moveEvents at he
  split at he
  · split at he
    · simp only [List.mem_singleton] at he; exact ⟨_, _, _, he⟩
    · simp at he
  · split at he
    · simp only [List.mem_singleton] at he; exact ⟨_, _, _, he⟩
    · simp at he

theorem scroll_mem_of_wheel {m : RAWMOUSE}
    (hw : m.usButtonFlags &&& RI_MOUSE_WHEEL ≠ 0) :
    InputData.MouseScrollData (wheelTicks m.usButtonData) ∈ mouseEvents m := by
  simp only [mouseEvents, List.append_assoc, List.mem_append]
  refine Or.inr (Or.inr (Or.inr (Or.inl ?_)))
  rw [wheelOrMiddleEvents, if_pos hw]
  exact List.mem_singleton.mpr rfl

theorem middle_not_mem_of_wheel {m : RAWMOUSE}
    (hw : m.usButtonFlags &&& RI_MOUSE_WHEEL ≠ 0) (b : Bool) :
    InputData.MouseClickData b false false true ∉ mouseEvents m := by
  intro h
  simp only [mouseEvents, List.append_assoc, List.mem_append] at h
  rcases h with h | h | h | h | h | h
  · obtain ⟨x, y, ab, hb⟩ := mem_moveEvents h; simp at hb
  · obtain ⟨b2, hb⟩ := mem_leftButtonEvents h; simp at hb
  · obtain ⟨b2, hb⟩ := mem_rightButtonEvents h; simp at hb
  · rw [wheelOrMiddleEvents, if_pos hw] at h
    simp at h
  · obtain ⟨b2, hb⟩ := mem_xButton1Events h; simp at hb
  · obtain ⟨b2, hb⟩ := mem_xButton2Events h; simp at hb

theorem leftDown_mem_leftButtonEvents (f : Nat) :
    InputData.MouseClickData true true false false ∈ leftButtonEvents f ↔
      f &&& RI_MOUSE_LEFT_BUTTON_DOWN ≠ 0 := by
  unfold leftButtonEvents
  split
  next h => simp [h]
  next h =>
    split
    next h2 => simp [h]
    next h2 => simp [h]

theorem x1Down_mem_xButton1Events (f : Nat) :
    InputData.MouseXClickData true true false ∈ xButton1Events f ↔
      f &&& RI_MOUSE_BUTTON_4_DOWN ≠ 0 := by
  unfold xButton1Events
  split
  next h => simp [h]
  next h =>
    split
    next h2 => simp [h]
    next h2 => simp [h]

theorem leftDown_mem_mouseEvents (m : RAWMOUSE) :
    InputData.MouseClickData true true false false ∈ mouseEvents m ↔
      m.usButtonFlags &&& RI_MOUSE_LEFT_BUTTON_DOWN ≠ 0 := by
  constructor
  · intro h
    simp only [mouseEvents, List.append_assoc, List.mem_append] at h
    rcases h with h | h | h | h | h | h
    · obtain ⟨x, y, ab, hb⟩ := mem_moveEvents h; simp at hb
    · exact (leftDown_mem_leftButtonEvents _).mp h
    · obtain ⟨b2, hb⟩ := mem_rightButtonEvents h; simp at hb
    · rcases mem_wheelOrMiddleEvents h with hb | ⟨b2, hb⟩ <;> simp at hb
    · obtain ⟨b2, hb⟩ := mem_xButton1Events h; simp at hb
    · obtain ⟨b2, hb⟩ := mem_xButton2Events h; simp at hb
  · intro h
    simp only [mouseEvents, List.append_assoc, List.mem_append]
    exact Or.inr (Or.inl ((leftDown_mem_leftButtonEvents _).mpr h))

theorem x1Down_mem_mouseEvents (m : RAWMOUSE) :
    InputData.MouseXClickData true true false ∈ mouseEvents m ↔
      m.usButtonFlags &&& RI_MOUSE_BUTTON_4_DOWN ≠ 0 := by
  constructor
  · intro h
    simp only [mouseEvents, List.append_assoc, List.mem_append] at h
    rcases h with h | h | h | h | h | h
    · obtain ⟨x, y, ab, hb⟩ := mem_moveEvents h; simp at hb
    · obtain ⟨b2, hb⟩ := mem_leftButtonEvents h; simp at hb
    · obtain ⟨b2, hb⟩ := mem_rightButtonEvents h; simp at hb
    · rcases mem_wheelOrMiddleEvents h with hb | ⟨b2, hb⟩ <;> simp at hb
    · exact (x1Down_mem_xButton1Events _).mp h
    · obtain ⟨b2, hb⟩ := mem_xButton2Events h; simp at hb
  · intro h
    simp only [mouseEvents, List.append_assoc, List.mem_append]
    exact Or.inr (Or.inr (Or.inr (Or.inr (Or.inl
      ((x1Down_mem_xButton1Events _).mpr h)))))

/-- C10: a raw mouse packet whose wheel flag is set records the scroll and
never a middle-button click (the wheel test and the middle-button tests
form one else-if chain), so middle clicks come only from packets without
the wheel flag, while the left and X-button chains are unaffected: their
events are present exactly when their own flag bits are set. -/
theorem wheel_suppresses_middle (m : RAWMOUSE) :
    (m.usButtonFlags &&& RI_MOUSE_WHEEL ≠ 0 →
      InputData.MouseScrollData (wheelTicks m.usButtonData) ∈ mouseEvents m ∧
      ∀ b : Bool,
        InputData.MouseClickData b false false true ∉ mouseEvents m) ∧
    (∀ b : Bool, InputData.MouseClickData b false false true ∈ mouseEvents m →
      m.usButtonFlags &&& RI_MOUSE_WHEEL = 0) ∧
    (InputData.MouseClickData true true false false ∈ mouseEvents m ↔
      m.usButtonFlags &&& RI_MOUSE_LEFT_BUTTON_DOWN ≠ 0) ∧
    (InputData.MouseXClickData true true false ∈ mouseEvents m ↔
      m.usButtonFlags &&& RI_MOUSE_BUTTON_4_DOWN ≠ 0) := by
  refine ⟨fun hw => ⟨scroll_mem_of_wheel hw, middle_not_mem_of_wheel hw⟩,
    ?_, leftDown_mem_mouseEvents m, x1Down_mem_mouseEvents m⟩
  intro b h
  by_contra hw
  exact middle_not_mem_of_wheel hw b h

/-- A packet with the wheel, middle-down, left-down and side-button-1-down
flags all set at once. -/
def wheelMouse : RAWMOUSE := ⟨0, 0, 0, 0x451, 120⟩

theorem wheel_suppresses_middle_witness :
    InputData.MouseScrollData (wheelTicks wheelMouse.usButtonData) ∈
      mouseEvents wheelMouse ∧
    InputData.MouseClickData true false false true ∉ mouseEvents wheelMouse ∧
    InputData.MouseClickData true true false false ∈ mouseEvents wheelMouse :=
  ⟨((wheel_suppresses_middle wheelMouse).1 (by decide)).1,
   ((wheel_suppresses_middle wheelMouse).1 (by decide)).2 true,
   (wheel_suppresses_middle wheelMouse).2.2.1.mpr (by decide)⟩

/-- Modelled from the spec: the trimming step of `RecordList::StopRecording`
/ `Save` (the RecordList implementation is not among the sources): a
trailing `Delay` with no following substantive event is removed, and a
sequence not ending in a delay is left untouched. -/
def trimTrailingDelay (seq : List InputData) : List InputData :=
  match seq.getLast? with
  | some (InputData.DelayData _) => seq.dropLast
  | _ => seq

/-- C5: stopping capture removes exactly a trailing `Delay` entry and
nothing else: a sequence ending in a substantive event followed by
`Delay d` trims to the sequence without that delay, and a sequence whose
last entry is not a delay is unchanged by the trim step. -/
theorem stopCapture_trims_trailing_delay (pre : List InputData)
    (k : InputData) (d : Nat) :
    trimTrailingDelay (pre ++ [k, InputData.DelayData d]) = pre ++ [k] ∧
    ∀ seq : List InputData, (∀ e ∈ seq.getLast?, isDelay e = false) →
      trimTrailingDelay seq = seq := by
  constructor
  · have hsplit : pre ++ [k, InputData.DelayData d] =
        (pre ++ [k]) ++ [InputData.DelayData d] := by
      simp
    rw [hsplit]
    have hlast : ((pre ++ [k]) ++ [InputData.DelayData d]).getLast? =
        some (InputData.DelayData d) := by simp
    rw [trimTrailingDelay, hlast, List.dropLast_concat]
  · intro seq hseq
    cases hlast : seq.getLast? with
    | none =>
      have : seq = [] := List.getLast?_eq_none_iff.mp hlast
      subst this
      rfl
    | some e =>
      have he : isDelay e = false := hseq e (by rw [hlast]; rfl)
      cases e <;> simp_all [trimTrailingDelay, isDelay]

theorem stopCapture_trims_trailing_delay_witness :
    trimTrailingDelay [demoKey, InputData.DelayData 9] = [demoKey] ∧
    trimTrailingDelay [demoKey] = [demoKey] :=
  ⟨((stopCapture_trims_trailing_delay [] demoKey 9).1 : _),
   (stopCapture_trims_trailing_delay [] demoKey 9).2 [demoKey]
     (by decide)⟩

/-- The capture/playback mode of the record store: the `IsRecording` and
`IsSimulating` flags observed through the handlers of `KbdBIProc`. -/
structure RecMode where
  recording : Bool
  simulating : Bool
deriving DecidableEq, Repr

/-- At startup the store is idle. -/
def initMode : RecMode := ⟨false, false⟩

/-- Transitions of the combined operation set, with the guards of the
CTRL+F1 (select / toggle-record) and CTRL+F2 (simulate) handlers.  Raw
input callbacks are dispatched one at a time on the single message-loop
thread and `SimulateRecord` runs to completion inside its handler, so
every command transition fires from a state with `simulating = false`;
playback is modelled by a begin transition (guarded by `HasRecorded` and
`!IsRecording`) and an end transition (completion or cancellation). -/
inductive RecTransition : RecMode → RecMode → Prop where
  | startRecording (s : RecMode) (hr : s.recording = false)
      (hs : s.simulating = false) : RecTransition s ⟨true, false⟩
  | stopRecording (s : RecMode) (hr : s.recording = true)
      (hs : s.simulating = false) : RecTransition s ⟨false, false⟩
  | simulateBegin (s : RecMode) (hr : s.recording = false)
      (hs : s.simulating = false) : RecTransition s ⟨false, true⟩
  | simulateEnd (s : RecMode) (hs : s.simulating = true) :
      RecTransition s ⟨s.recording, false⟩

/-- The states reachable from startup by any sequence of start/stop
capture, play and cancel operations. -/
inductive ReachableMode : RecMode → Prop where
  | init : ReachableMode initMode
  | step {s t : RecMode} : ReachableMode s → RecTransition s t →
      ReachableMode t

/-- C3: in every reachable state of the capture/playback state machine the
mode is never simultaneously `Capturing` and `Simulating`; moreover
playback only ever begins from a non-recording state and capture only
ever begins from a non-simulating state (the transition guards). -/
theorem mode_never_capturing_and_simulating (s : RecMode)
    (hs : ReachableMode s) :
    ¬(s.recording = true ∧ s.simulating = true) := by
  induction hs with
  | init => intro h; exact Bool.false_ne_true h.1
  | step hr ht ih =>
    cases ht with
    | startRecording hr2 hs2 => intro h; exact Bool.false_ne_true h.2
    | stopRecording hr2 hs2 => intro h; exact Bool.false_ne_true h.1
    | simulateBegin hr2 hs2 => intro h; exact Bool.false_ne_true h.1
    | simulateEnd hs2 => intro h; exact Bool.false_ne_true h.2

theorem mode_never_capturing_and_simulating_witness :
    ¬((⟨false, true⟩ : RecMode).recording = true ∧
      (⟨false, true⟩ : RecMode).simulating = true) :=
  mode_never_capturing_and_simulating ⟨false, true⟩
    (ReachableMode.step ReachableMode.init
      (RecTransition.simulateBegin initMode rfl rfl))

/-- The record store as observed through the simulate handler: the sparse
slot-id → sequence mapping, the current-selection cursor (`none` for the
`INVALID` sentinel) and the recording flag. -/
structure RecordStore where
  records : List (Nat × List InputData)
  currentRecord : Option Nat
  recording : Bool

/-- The sequence the current slot denotes, when the cursor is set and the
slot exists. -/
def RecordStore.currentSeq (s : RecordStore) : Option (List InputData) :=
  match s.currentRecord with
  | some i => s.records.lookup i
  | none => none

/-- Modelled from the spec: `RecordList::HasRecorded` (implementation not
among the sources) — the current slot denotes a non-empty recorded
sequence. -/
def RecordStore.hasRecorded (s : RecordStore) : Bool :=
  match s.currentSeq with
  | some seq => !seq.isEmpty
  | none => false

/-- Modelled from the spec: `RecordList::SimulateRecord` playback output
(implementation not among the sources) — each non-delay entry of the
stored sequence is handed to the injection sink in order, and the
sequence itself is never mutated. -/
def playbackInjections (seq : List InputData) : List InputData :=
  seq.filter (fun e => !isDelay e)

/-- The CTRL+F2 simulate handler of `KbdBIProc`: playback runs only when
`HasRecorded()` holds and capture is not in progress; otherwise nothing is
injected and the store is left untouched.  The result is the store after
the handler together with the list of injected events. -/
def simulateHandler (s : RecordStore) :
    RecordStore × List InputData :=
  if s.hasRecorded && !s.recording then
    (s, playbackInjections (s.currentSeq.getD []))
  else (s, [])

/-- C7: playback is started only when no capture is in progress and the
current slot denotes a non-empty sequence, and requesting playback of an
empty or nonexistent sequence injects nothing and changes no state. -/
theorem play_empty_is_noop (s : RecordStore) :
    ((s.currentSeq = none ∨ s.currentSeq = some []) →
      simulateHandler s = (s, [])) ∧
    ((simulateHandler s).2 ≠ [] →
      s.hasRecorded = true ∧ s.recording = false) ∧
    (simulateHandler s).1 = s := by
  refine ⟨?_, ?_, ?_⟩
  · intro h
    have hrec : s.hasRecorded = false := by
      rcases h with h | h <;> simp [RecordStore.hasRecorded, h]
    rw [simulateHandler, hrec]
    simp
  · intro h
    by_cases hg : s.hasRecorded && !s.recording
    · rcases Bool.and_eq_true_iff.mp hg with ⟨h1, h2⟩
      exact ⟨h1, by simpa using h2⟩
    · rw [simulateHandler, if_neg (by simpa using hg)] at h
      simp at h
  · rw [simulateHandler]
    split <;> rfl

theorem play_empty_is_noop_witness :
    simulateHandler ⟨[(0, [])], some 0, false⟩ =
      (⟨[(0, [])], some 0, false⟩, []) ∧
    simulateHandler ⟨[], some 3, false⟩ = (⟨[], some 3, false⟩, []) :=
  ⟨(play_empty_is_noop ⟨[(0, [])], some 0, false⟩).1 (Or.inr rfl),
   (play_empty_is_noop ⟨[], some 3, false⟩).1 (Or.inl rfl)⟩

/-- Chord comparison as unordered set equality of virtual-key codes
(spec: a chord "exactly matches a stored binding (unordered set
equality)"). -/
def chordEq (a b : List Nat) : Bool :=
  a.all (fun k => b.contains k) && b.all (fun k => a.contains k)

/-- The smallest slot id not yet bound: "the next unused integer slot
id".  Among `0 .. n` (with `n` bindings) at least one id is unused. -/
def freshSlot (bindings : List (Nat × List Nat)) : Nat :=
  ((List.range (bindings.length + 1)).filter
    (fun i => bindings.all (fun p => p.1 != i))).headD 0

/-- Modelled from the spec: `RecordList::AddRecord` (implementation not
among the sources) — if the chord already maps to an existing slot that
slot is reselected, otherwise the next unused integer slot id is
allocated and bound to the chord.  Returns the updated bindings and the
selected slot id. -/
def bindSlot (bindings : List (Nat × List Nat)) (chord : List Nat) :
    List (Nat × List Nat) × Nat :=
  match bindings.find? (fun p => chordEq p.2 chord) with
  | some p => (bindings, p.1)
  | none =>
      let i := freshSlot bindings
      (bindings ++ [(i, chord)], i)

theorem chordEq_refl (c : List Nat) : chordEq c c = true := by
  rw [chordEq, Bool.and_self]
  exact List.all_eq_true.mpr fun k hk => by
    simpa using List.elem_eq_true_of_mem hk

theorem freshSlot_unused (bindings : List (Nat × List Nat)) :
    ∀ p ∈ bindings, p.1 ≠ freshSlot bindings := by
  have hl : freshSlot bindings =
      ((List.range (bindings.length + 1)).filter
        (fun i => bindings.all (fun p => p.1 != i))).headD 0 := rfl
  have hne : (List.range (bindings.length + 1)).filter
      (fun i => bindings.all (fun p => p.1 != i)) ≠ [] := by
    intro h0
    have hsub : List.range (bindings.length + 1) ⊆ bindings.map Prod.fst := by
      intro i hi
      by_contra hmem
      have hin : i ∈ (List.range (bindings.length + 1)).filter
          (fun i => bindings.all (fun p => p.1 != i)) := by
        refine List.mem_filter.mpr ⟨hi, ?_⟩
        refine List.all_eq_true.mpr fun p hp => ?_
        have hpi : p.1 ≠ i :=
          fun hEq => hmem (hEq ▸ List.mem_map_of_mem Prod.fst hp)
        simpa using hpi
      rw [h0] at hin
      exact absurd hin (List.not_mem_nil i)
    have hlen := (List.Nodup.subperm (List.nodup_range _) hsub).length_le
    simp only [List.length_range, List.length_map] at hlen
    omega
  obtain ⟨a, t, hat⟩ := List.exists_cons_of_ne_nil hne
  have hmem : freshSlot bindings ∈ (List.range (bindings.length + 1)).filter
      (fun i => bindings.all (fun p => p.1 != i)) := by
    rw [hl, hat]
    exact List.mem_cons_self a t
  have hpred := (List.mem_filter.mp hmem).2
  intro p hp hEq
  have hall := List.all_eq_true.mp hpred p hp
  rw [hEq] at hall
  simp at hall

/-- C8: binding a chord is idempotent on the slot id — binding the same
chord twice selects the same slot both times; a chord that already maps to
a slot reselects that slot without touching the bindings; and only an
unbound chord allocates, receiving an integer slot id unused by every
existing binding. -/
theorem bindSlot_idempotent (b : List (Nat × List Nat)) (c : List Nat) :
    (bindSlot (bindSlot b c).1 c).2 = (bindSlot b c).2 ∧
    (∀ p, b.find? (fun q => chordEq q.2 c) = some p →
      bindSlot b c = (b, p.1)) ∧
    (b.find? (fun q => chordEq q.2 c) = none →
      (bindSlot b c).1 = b ++ [(freshSlot b, c)] ∧
      (bindSlot b c).2 = freshSlot b ∧
      ∀ p ∈ b, p.1 ≠ freshSlot b) := by
  refine ⟨?_, ?_, ?_⟩
  · cases hfind : b.find? (fun q => chordEq q.2 c) with
    | some p => simp [bindSlot, hfind]
    | none =>
      have h1 : bindSlot b c = (b ++ [(freshSlot b, c)], freshSlot b) := by
        simp [bindSlot, hfind]
      rw [h1]
      have h2 : (b ++ [(freshSlot b, c)]).find? (fun q => chordEq q.2 c) =
          some (freshSlot b, c) := by
        rw [List.find?_append, hfind, Option.none_or]
        exact List.find?_cons_of_pos _ (chordEq_refl c)
      simp [bindSlot, h2]
  · intro p hfind
    simp [bindSlot, hfind]
  · intro hfind
    have h1 : bindSlot b c = (b ++ [(freshSlot b, c)], freshSlot b) := by
      simp [bindSlot, hfind]
    exact ⟨by rw [h1], by rw [h1], freshSlot_unused b⟩

theorem bindSlot_idempotent_witness :
    (bindSlot (bindSlot [] [10, 20]).1 [10, 20]).2 =
      (bindSlot [] [10, 20]).2 ∧
    (bindSlot ([] : List (Nat × List Nat)) [10, 20]).2 = freshSlot [] :=
  ⟨(bindSlot_idempotent [] [10, 20]).1,
   ((bindSlot_idempotent [] [10, 20]).2.2 rfl).2.1⟩

/-- A key transition observed by the combo recorder while arming or
deleting a binding. -/
inductive KeyAct where
  | press (vk : Nat)
  | release (vk : Nat)
deriving DecidableEq, Repr

/-- Modelled from the spec: the `KeyComboRec` accumulator (its
implementation is not among the sources, only its callers): `vkeys` is
the ordered set of keys added by `AddVKey` on key-down, duplicates
ignored, `down` is the subset of chord keys currently held, and
`hasCompleted` latches once every pressed key has been released after at
least one press. -/
structure KeyComboRec where
  vkeys : List Nat
  down : List Nat
  hasCompleted : Bool
deriving DecidableEq, Repr

/-- The state right after `StartRecording` / `StartDeleting`: no keys, not
completed. -/
def KeyComboRec.start : KeyComboRec := ⟨[], [], false⟩

/-- Modelled from the spec: `AddVKey` on key-down — set-semantics insert
into the chord and into the held set. -/
def KeyComboRec.addVKey (c : KeyComboRec) (k : Nat) : KeyComboRec :=
  { vkeys := if c.vkeys.contains k then c.vkeys else c.vkeys ++ [k],
    down := if c.down.contains k then c.down else c.down ++ [k],
    hasCompleted := c.hasCompleted }

/-- Modelled from the spec: the completion check observed through
`HasRecorded` on key-up — the released key leaves the held set, and
completion latches when no chord key remains held and at least one key
was pressed (an empty chord never completes). -/
def KeyComboRec.releaseVKey (c : KeyComboRec) (k : Nat) : KeyComboRec :=
  { vkeys := c.vkeys, down := c.down.erase k,
    hasCompleted := c.hasCompleted ||
      ((c.down.erase k).isEmpty && !c.vkeys.isEmpty) }

/-- One key transition of the combo-recorder state machine. -/
def KeyComboRec.step (c : KeyComboRec) : KeyAct → KeyComboRec
  | KeyAct.press k => c.addVKey k
  | KeyAct.release k => c.releaseVKey k

/-- The recorder state after a whole gesture, starting from the fresh
state. -/
def runCombo (acts : List KeyAct) : KeyComboRec :=
  acts.foldl KeyComboRec.step KeyComboRec.start

/-- The keys pressed at some point during a gesture, in first-press
order. -/
def pressedKeys (acts : List KeyAct) : List Nat :=
  acts.foldl
    (fun s a => match a with
      | KeyAct.press k => if s.contains k then s else s ++ [k]
      | KeyAct.release _ => s) []

theorem runCombo_vkeys_aux (acts : List KeyAct) (c : KeyComboRec) :
    (acts.foldl KeyComboRec.step c).vkeys =
      acts.foldl
        (fun s a => match a with
          | KeyAct.press k => if s.contains k then s else s ++ [k]
          | KeyAct.release _ => s) c.vkeys := by
  induction acts generalizing c with
  | nil => rfl
  | cons a rest ih =>
    cases a with
    | press k =>
      rw [List.foldl_cons, List.foldl_cons]
      exact ih (c.addVKey k)
    | release k =>
      rw [List.foldl_cons, List.foldl_cons]
      exact ih (c.releaseVKey k)

/-- The captured chord is exactly the set of keys pressed during the
gesture. -/
theorem runCombo_vkeys (acts : List KeyAct) :
    (runCombo acts).vkeys = pressedKeys acts :=
  runCombo_vkeys_aux acts KeyComboRec.start

theorem runCombo_no_press_aux (acts : List KeyAct) (c : KeyComboRec)
    (h : ∀ k, KeyAct.press k ∉ acts) (hv : c.vkeys = [])
    (hc : c.hasCompleted = false) :
    (acts.foldl KeyComboRec.step c).hasCompleted = false := by
  induction acts generalizing c with
  | nil => exact hc
  | cons a rest ih =>
    cases a with
    | press k => exact absurd (List.mem_cons_self _ _) (h k)
    | release k =>
      rw [List.foldl_cons]
      refine ih (c.releaseVKey k)
        (fun k2 hk2 => h k2 (List.mem_cons_of_mem _ hk2)) ?_ ?_
      · exact hv
      · simp [KeyComboRec.releaseVKey, hv, hc]

theorem runCombo_snoc (acts : List KeyAct) (a : KeyAct) :
    runCombo (acts ++ [a]) = (runCombo acts).step a := by
  rw [runCombo, List.foldl_append, List.foldl_cons, List.foldl_nil]
  rfl

theorem runCombo_completed_point (acts : List KeyAct)
    (h : (runCombo acts).hasCompleted = true) :
    ∃ n, n ≤ acts.length ∧ (runCombo (acts.take n)).down = [] ∧
      (runCombo (acts.take n)).vkeys ≠ [] := by
  induction acts using List.reverseRecOn with
  | nil => simp [runCombo, KeyComboRec.start] at h
  | append_singleton as a ih =>
    cases a with
    | press k =>
      rw [runCombo_snoc] at h
      have h2 : (runCombo as).hasCompleted = true := h
      obtain ⟨n, hn, hdown, hvk⟩ := ih h2
      refine ⟨n, ?_, ?_, ?_⟩
      · rw [List.length_append]
        omega
      · rw [List.take_append_of_le_length hn]
        exact hdown
      · rw [List.take_append_of_le_length hn]
        exact hvk
    | release k =>
      rw [runCombo_snoc] at h
      cases hprev : (runCombo as).hasCompleted with
      | true =>
        obtain ⟨n, hn, hdown, hvk⟩ := ih hprev
        refine ⟨n, ?_, ?_, ?_⟩
        · rw [List.length_append]
          omega
        · rw [List.take_append_of_le_length hn]
          exact hdown
        · rw [List.take_append_of_le_length hn]
          exact hvk
      | false =>
        have h3 : ((runCombo as).down.erase k).isEmpty = true ∧
            (runCombo as).vkeys.isEmpty = false := by
          rw [KeyComboRec.step, KeyComboRec.releaseVKey] at h
          simp only [hprev, Bool.false_or, Bool.and_eq_true,
            Bool.not_eq_true'] at h
          exact h
        refine ⟨(as ++ [KeyAct.release k]).length, le_refl _, ?_, ?_⟩
        · rw [List.take_length, runCombo_snoc]
          exact List.isEmpty_iff.mp h3.1
        · rw [List.take_length, runCombo_snoc]
          intro h0
          have : (runCombo as).vkeys = [] := h0
          rw [this] at h3
          simp at h3

/-- The three-key gesture press 1, press 2, release 1, press 3,
release 2, release 3. -/
def gestureCex : List KeyAct :=
  [KeyAct.press 1, KeyAct.press 2, KeyAct.release 1, KeyAct.press 3,
   KeyAct.release 2, KeyAct.release 3]

/-- C6 counterexample: in the gesture `gestureCex` completion fires after
the last release and the captured chord is all three keys, yet at no
point during the gesture were more than two keys simultaneously down —
so the captured chord is not the maximal set of keys simultaneously down
during the gesture. -/
theorem combo_chord_not_max_simultaneous_cex :
    (runCombo gestureCex).hasCompleted = true ∧
    (runCombo gestureCex).vkeys = [1, 2, 3] ∧
    ((List.range 7).all fun n =>
      decide ((runCombo (gestureCex.take n)).down.length ≤ 2)) = true := by
  decide

/-- C6 amended: completion is reported only once all keys pressed during
the gesture have been released after at least one press (never for a
gesture with no press), the captured chord is the set of all keys pressed
during the gesture — which for the two-key chord pressed together and
released in either order is exactly that chord, whatever the press and
release order — and completion fires on the last release, not the
first. -/
theorem combo_completion (acts : List KeyAct) :
    ((∀ k, KeyAct.press k ∉ acts) → (runCombo acts).hasCompleted = false) ∧
    ((runCombo acts).hasCompleted = true →
      ∃ n, n ≤ acts.length ∧ (runCombo (acts.take n)).down = [] ∧
        (runCombo (acts.take n)).vkeys ≠ []) ∧
    (runCombo acts).vkeys = pressedKeys acts ∧
    (runCombo [KeyAct.press 1, KeyAct.press 2,
      KeyAct.release 2]).hasCompleted = false ∧
    (runCombo [KeyAct.press 1, KeyAct.press 2, KeyAct.release 2,
      KeyAct.release 1]).hasCompleted = true ∧
    (runCombo [KeyAct.press 1, KeyAct.press 2, KeyAct.release 2,
      KeyAct.release 1]).vkeys = [1, 2] ∧
    (runCombo [KeyAct.press 2, KeyAct.press 1, KeyAct.release 1,
      KeyAct.release 2]).vkeys.toFinset =
      (runCombo [KeyAct.press 1, KeyAct.press 2, KeyAct.release 2,
        KeyAct.release 1]).vkeys.toFinset :=
  ⟨fun h => runCombo_no_press_aux acts KeyComboRec.start h rfl rfl,
   runCombo_completed_point acts, runCombo_vkeys acts,
   by decide, by decide, by decide, by decide⟩

theorem combo_completion_witness :
    (runCombo [KeyAct.release 5]).hasCompleted = false ∧
    (runCombo [KeyAct.press 1, KeyAct.press 2, KeyAct.release 2,
      KeyAct.release 1]).hasCompleted = true :=
  ⟨(combo_completion [KeyAct.release 5]).1 (fun k hk => by simp at hk),
   (combo_completion []).2.2.2.2.1⟩
